import Mathlib

/-!
Verification of the `quantum_suite` ML-KEM implementation (rank-1 K-PKE /
ML-KEM over R_q = Z_q[x]/(x^256+1), q = 3329).

The development shallowly embeds the Python sources:
  * `auxiliary/cryptographic/functions.py` (hash suite, XOF object),
  * `auxiliary/general/functions.py` (codec and samplers),
  * `auxiliary/transform/functions.py` (NTT engine),
  * `key-encryption`/`key_encryption` (K-PKE KeyGen/Encrypt/Decrypt),
  * `ml_kem_internal` (KeyGen/Encaps/Decaps internal routines).

Bytes are `List Nat` (entries < 256), ring coefficients are `Int` (Python
ints; `%` on `Int` in Lean is `Int.emod`, which agrees with Python's `%` for
a positive modulus, and `Int.fdiv` agrees with Python's `//`).  Fallible
Python code (raising `ValueError` etc.) is embedded as `Option`-valued
functions, `none` marking the raise.  The Python standard library hash
functions (`hashlib.shake_128` and friends) are embedded as an executable
Keccak/FIPS-202 sponge over `Nat` lanes reduced mod 2^64.
-/

namespace QS

/-! ### Keccak-f[1600] over `Nat` lanes (semantics of `hashlib` SHA-3/SHAKE) -/

/-- 2^64, the lane modulus. -/
def w64 : Nat := 2 ^ 64

/-- Rotate a 64-bit lane left by `n` (0 ≤ n < 64). -/
def rotl64 (x n : Nat) : Nat := ((x <<< n) % w64) ||| (x >>> (64 - n))

/-- The Keccak round constants (FIPS 202), written in decimal. -/
def keccakRC : List Nat :=
  [1, 32898, 9223372036854808714, 9223372039002292224, 32907, 2147483649,
   9223372039002292353, 9223372036854808585, 138, 136, 2147516425, 2147483658,
   2147516555, 9223372036854775947, 9223372036854808713, 9223372036854808579,
   9223372036854808578, 9223372036854775936, 32778, 9223372039002259466,
   9223372039002292353, 9223372036854808704, 2147483649, 9223372039002292232]

/-- 2^64 - 1, the lane complement mask used by χ. -/
def mask64 : Nat := w64 - 1

/-- One pass of the 24 Keccak rounds over 25 explicit lane arguments
(θ, ρ, π, χ, ι exactly as in FIPS 202); the flat form keeps every
intermediate lane as a single shared `let`. -/
def keccakRounds : List Nat → Nat → Nat → Nat → Nat → Nat → Nat → Nat → Nat → Nat → Nat → Nat → Nat → Nat → Nat → Nat → Nat → Nat → Nat → Nat → Nat → Nat → Nat → Nat → Nat → Nat → List Nat
  | [], a0, a1, a2, a3, a4, a5, a6, a7, a8, a9, a10, a11, a12, a13, a14, a15, a16, a17, a18, a19, a20, a21, a22, a23, a24 =>
      [a0, a1, a2, a3, a4, a5, a6, a7, a8, a9, a10, a11, a12, a13, a14, a15, a16, a17, a18, a19, a20, a21, a22, a23, a24]
  | rc :: rest, a0, a1, a2, a3, a4, a5, a6, a7, a8, a9, a10, a11, a12, a13, a14, a15, a16, a17, a18, a19, a20, a21, a22, a23, a24 =>
      let c0 := a0 ^^^ a5 ^^^ a10 ^^^ a15 ^^^ a20
      let c1 := a1 ^^^ a6 ^^^ a11 ^^^ a16 ^^^ a21
      let c2 := a2 ^^^ a7 ^^^ a12 ^^^ a17 ^^^ a22
      let c3 := a3 ^^^ a8 ^^^ a13 ^^^ a18 ^^^ a23
      let c4 := a4 ^^^ a9 ^^^ a14 ^^^ a19 ^^^ a24
      let d0 := c4 ^^^ rotl64 c1 1
      let d1 := c0 ^^^ rotl64 c2 1
      let d2 := c1 ^^^ rotl64 c3 1
      let d3 := c2 ^^^ rotl64 c4 1
      let d4 := c3 ^^^ rotl64 c0 1
      let t0 := a0 ^^^ d0
      let t1 := a1 ^^^ d1
      let t2 := a2 ^^^ d2
      let t3 := a3 ^^^ d3
      let t4 := a4 ^^^ d4
      let t5 := a5 ^^^ d0
      let t6 := a6 ^^^ d1
      let t7 := a7 ^^^ d2
      let t8 := a8 ^^^ d3
      let t9 := a9 ^^^ d4
      let t10 := a10 ^^^ d0
      let t11 := a11 ^^^ d1
      let t12 := a12 ^^^ d2
      let t13 := a13 ^^^ d3
      let t14 := a14 ^^^ d4
      let t15 := a15 ^^^ d0
      let t16 := a16 ^^^ d1
      let t17 := a17 ^^^ d2
      let t18 := a18 ^^^ d3
      let t19 := a19 ^^^ d4
      let t20 := a20 ^^^ d0
      let t21 := a21 ^^^ d1
      let t22 := a22 ^^^ d2
      let t23 := a23 ^^^ d3
      let t24 := a24 ^^^ d4
      let b0 := t0
      let b1 := rotl64 t6 44
      let b2 := rotl64 t12 43
      let b3 := rotl64 t18 21
      let b4 := rotl64 t24 14
      let b5 := rotl64 t3 28
      let b6 := rotl64 t9 20
      let b7 := rotl64 t10 3
      let b8 := rotl64 t16 45
      let b9 := rotl64 t22 61
      let b10 := rotl64 t1 1
      let b11 := rotl64 t7 6
      let b12 := rotl64 t13 25
      let b13 := rotl64 t19 8
      let b14 := rotl64 t20 18
      let b15 := rotl64 t4 27
      let b16 := rotl64 t5 36
      let b17 := rotl64 t11 10
      let b18 := rotl64 t17 15
      let b19 := rotl64 t23 56
      let b20 := rotl64 t2 62
      let b21 := rotl64 t8 55
      let b22 := rotl64 t14 39
      let b23 := rotl64 t15 41
      let b24 := rotl64 t21 2
      let e0 := (b0 ^^^ ((b1 ^^^ mask64) &&& b2)) ^^^ rc
      let e1 := b1 ^^^ ((b2 ^^^ mask64) &&& b3)
      let e2 := b2 ^^^ ((b3 ^^^ mask64) &&& b4)
      let e3 := b3 ^^^ ((b4 ^^^ mask64) &&& b0)
      let e4 := b4 ^^^ ((b0 ^^^ mask64) &&& b1)
      let e5 := b5 ^^^ ((b6 ^^^ mask64) &&& b7)
      let e6 := b6 ^^^ ((b7 ^^^ mask64) &&& b8)
      let e7 := b7 ^^^ ((b8 ^^^ mask64) &&& b9)
      let e8 := b8 ^^^ ((b9 ^^^ mask64) &&& b5)
      let e9 := b9 ^^^ ((b5 ^^^ mask64) &&& b6)
      let e10 := b10 ^^^ ((b11 ^^^ mask64) &&& b12)
      let e11 := b11 ^^^ ((b12 ^^^ mask64) &&& b13)
      let e12 := b12 ^^^ ((b13 ^^^ mask64) &&& b14)
      let e13 := b13 ^^^ ((b14 ^^^ mask64) &&& b10)
      let e14 := b14 ^^^ ((b10 ^^^ mask64) &&& b11)
      let e15 := b15 ^^^ ((b16 ^^^ mask64) &&& b17)
      let e16 := b16 ^^^ ((b17 ^^^ mask64) &&& b18)
      let e17 := b17 ^^^ ((b18 ^^^ mask64) &&& b19)
      let e18 := b18 ^^^ ((b19 ^^^ mask64) &&& b15)
      let e19 := b19 ^^^ ((b15 ^^^ mask64) &&& b16)
      let e20 := b20 ^^^ ((b21 ^^^ mask64) &&& b22)
      let e21 := b21 ^^^ ((b22 ^^^ mask64) &&& b23)
      let e22 := b22 ^^^ ((b23 ^^^ mask64) &&& b24)
      let e23 := b23 ^^^ ((b24 ^^^ mask64) &&& b20)
      let e24 := b24 ^^^ ((b20 ^^^ mask64) &&& b21)
      keccakRounds rest e0 e1 e2 e3 e4 e5 e6 e7 e8 e9 e10 e11 e12 e13 e14 e15 e16 e17 e18 e19 e20 e21 e22 e23 e24
/-- Keccak-f[1600]: 24 rounds over the 25-lane state. -/
def keccakF (A : List Nat) : List Nat :=
  keccakRounds keccakRC (A.getD 0 0) (A.getD 1 0) (A.getD 2 0) (A.getD 3 0) (A.getD 4 0) (A.getD 5 0) (A.getD 6 0) (A.getD 7 0) (A.getD 8 0) (A.getD 9 0) (A.getD 10 0) (A.getD 11 0) (A.getD 12 0) (A.getD 13 0) (A.getD 14 0) (A.getD 15 0) (A.getD 16 0) (A.getD 17 0) (A.getD 18 0) (A.getD 19 0) (A.getD 20 0) (A.getD 21 0) (A.getD 22 0) (A.getD 23 0) (A.getD 24 0)

/-! ### The sponge (pad10*1 with domain-separation byte, absorb, squeeze) -/

/-- FIPS-202 padding: domain-separation byte `ds`, zeros, final 0x80. -/
def keccakPad (rate ds : Nat) (msg : List Nat) : List Nat :=
  let padlen := rate - msg.length % rate
  if padlen = 1 then msg ++ [ds ||| 128]
  else msg ++ [ds] ++ List.replicate (padlen - 2) 0 ++ [128]

/-- Read the 25 lanes of a rate-sized block, little-endian bytes per lane
(lanes beyond the rate are 0). -/
def lanesOfBlock (block : List Nat) : List Nat :=
  (List.range 25).map (fun l =>
    (List.range 8).foldr (fun k acc => block.getD (8 * l + k) 0 + 256 * acc) 0)

/-- Split a padded message into rate-sized blocks. -/
def toBlocks (rate : Nat) (padded : List Nat) : List (List Nat) :=
  (List.range (padded.length / rate)).map (fun i => (padded.drop (i * rate)).take rate)

/-- Absorb the blocks into the sponge state. -/
def absorbBlocks : List (List Nat) → List Nat → List Nat
  | [], st => st
  | b :: rest, st => absorbBlocks rest (keccakF (st.zipWith Nat.xor (lanesOfBlock b)))

/-- The first `n` output bytes of a state (little-endian lanes). -/
def stateBytes (n : Nat) (st : List Nat) : List Nat :=
  (List.range n).map (fun k => (st.getD (k / 8) 0 >>> (8 * (k % 8))) &&& 255)

/-- Squeeze `nb` rate-sized output blocks. -/
def squeezeLoop (rate : Nat) : Nat → List Nat → List Nat
  | 0, _ => []
  | nb + 1, st => stateBytes rate st ++ squeezeLoop rate nb (keccakF st)

/-- The full sponge digest: `outLen` bytes of the XOF stream of `msg`. -/
def spongeDigest (rate ds : Nat) (msg : List Nat) (outLen : Nat) : List Nat :=
  let padded := keccakPad rate ds msg
  let st := absorbBlocks (toBlocks rate padded) (List.replicate 25 0)
  (squeezeLoop rate ((outLen + rate - 1) / rate) st).take outLen

/-! ### The hash suite of `auxiliary/cryptographic/functions.py` -/

/-- `hashlib.shake_128(data).digest(n)`. -/
def shake128 (data : List Nat) (n : Nat) : List Nat := spongeDigest 168 0x1F data n

/-- `hashlib.shake_256(data).digest(n)`. -/
def shake256 (data : List Nat) (n : Nat) : List Nat := spongeDigest 136 0x1F data n

/-- `sha3_256(data)`. -/
def sha3_256 (data : List Nat) : List Nat := spongeDigest 136 0x06 data 32

/-- `sha3_512(data)`. -/
def sha3_512 (data : List Nat) : List Nat := spongeDigest 72 0x06 data 64

/-- `PRF(eta, s, b) = shake256(s + b, 64*eta)` with the validation of the
source (`eta ∈ {2,3}`, `len(s) = 32`, `len(b) = 1`); `none` is the raise. -/
def PRF (eta : Nat) (s b : List Nat) : Option (List Nat) :=
  if eta ≠ 2 ∧ eta ≠ 3 then none
  else if s.length ≠ 32 then none
  else if b.length ≠ 1 then none
  else some (shake256 (s ++ b) (64 * eta))

/-- `H(s) = sha3_256(s)`. -/
def H (s : List Nat) : List Nat := sha3_256 s

/-- `J(s) = shake256(s, 32)`. -/
def J (s : List Nat) : List Nat := shake256 s 32

/-- `G(c)`: the two 32-byte halves of `sha3_512(c)`. -/
def G (c : List Nat) : List Nat × List Nat :=
  let digest := sha3_512 c
  (digest.take 32, digest.drop 32)

/-- The `XOF` class: its only state is the absorbed data; `squeeze` calls
`hashlib`'s `digest(length)`, which always restarts the SHAKE128 stream
from the beginning (a snapshot, not an advancing stream). -/
structure XOF where
  absorbed : List Nat

/-- `XOF()`. -/
def xofInit : XOF := ⟨[]⟩

/-- `XOF.absorb`: `self._ctx.update(data)`. -/
def XOF.absorb (x : XOF) (data : List Nat) : XOF := ⟨x.absorbed ++ data⟩

/-- `XOF.squeeze`: `self._ctx.digest(length)` — the first `length` bytes of
the SHAKE128 stream of the absorbed data; the object state is unchanged. -/
def XOF.squeeze (x : XOF) (length : Nat) : List Nat := shake128 x.absorbed length

/-! ### RingCodec: `auxiliary/general/functions.py` -/

/-- One byte from 8 little-endian bits: the inner loop `byte_val |= bit << j`. -/
def byteOfBits (bits8 : List Nat) : Nat :=
  bits8.enum.foldl (fun acc p => acc ||| (p.2 <<< p.1)) 0

/-- The per-byte grouping of `bits_to_bytes` (callers have checked that the
length is a multiple of 8, so the catch-all is never hit). -/
def bytesOfBitsAux : List Nat → List Nat
  | b0 :: b1 :: b2 :: b3 :: b4 :: b5 :: b6 :: b7 :: rest =>
      byteOfBits [b0, b1, b2, b3, b4, b5, b6, b7] :: bytesOfBitsAux rest
  | _ => []

/-- `bits_to_bytes(bits)`: fails unless the length is a multiple of 8 and
every entry is 0 or 1. -/
def bits_to_bytes (bits : List Nat) : Option (List Nat) :=
  if bits.length % 8 ≠ 0 then none
  else if bits.all (fun b => b ≤ 1) then some (bytesOfBitsAux bits)
  else none

/-- `bytes_to_bits(data)`: little-endian bit expansion. -/
def bytes_to_bits (data : List Nat) : List Nat :=
  data.flatMap (fun byte => (List.range 8).map (fun j => (byte >>> j) &&& 1))

/-- `compress(x, d)`: `((x << d) // q) & ((1 << d) - 1)`.  On `Int`,
Python's `<<` is multiplication by 2^d, `//` is `Int.fdiv`, and masking by
`2^d - 1` is `% 2^d` (`Int.emod`). -/
def compress (x : Int) (d : Nat) : Option Int :=
  if 1 ≤ d ∧ d < 12 then some (Int.fdiv (x * 2 ^ d) 3329 % 2 ^ d) else none

/-- `decompress(y, d)`: `((y * q) + (1 << (d - 1))) >> d`; Python's `>>` is
floor division by 2^d (`Int.fdiv`). -/
def decompress (y : Int) (d : Nat) : Option Int :=
  if 1 ≤ d ∧ d < 12 then some (Int.fdiv (y * 3329 + 2 ^ (d - 1)) (2 ^ d)) else none

/-- `byte_encode(F, d)`: range-check each coefficient against
`m = 2^d if d < 12 else q`, emit its `d` little-endian bits, then pack.
(The coefficients are checked nonnegative, so extracting bits from
`x.toNat` agrees with Python's `(x >> j) & 1`.) -/
def byte_encode (F : List Int) (d : Nat) : Option (List Nat) :=
  if F.length ≠ 256 then none
  else
    let m : Int := if d < 12 then 2 ^ d else 3329
    if (256 * d) % 8 ≠ 0 then none
    else if F.all (fun x => 0 ≤ x ∧ x < m) then
      bits_to_bytes (F.flatMap (fun x => (List.range d).map (fun j => (x.toNat >>> j) &&& 1)))
    else none

/-- `byte_decode(B, d)`: length check, then each of the 256 `d`-bit
little-endian chunks is read and reduced `% m`. -/
def byte_decode (B : List Nat) (d : Nat) : Option (List Int) :=
  let m : Nat := if d < 12 then 2 ^ d else 3329
  if B.length ≠ (256 * d) / 8 then none
  else
    let bits := bytes_to_bits B
    (List.range 256).mapM (fun i =>
      let chunk := (bits.drop (i * d)).take d
      if chunk.length ≠ d then none
      else some (Int.ofNat ((chunk.enum.foldl (fun acc p => acc + (p.2 <<< p.1)) 0) % m)))

/-! ### Samplers -/

/-- The body of `sample_ntt`'s `while` loop, with explicit fuel: each
iteration squeezes 3 bytes from the XOF object (whose state never
changes), extracts the two 12-bit candidates and keeps those `< q`.
`none` means the fuel ran out (the Python loop has not yet returned) or
the squeeze returned fewer than 3 bytes (the source's `RuntimeError`,
which never fires since `squeeze` always returns `length` bytes). -/
def sampleNttLoop (xof : XOF) : Nat → List Int → Option (List Int)
  | 0, _ => none
  | fuel + 1, coefficients =>
    if coefficients.length ≥ 256 then some coefficients
    else
      let C := xof.squeeze 3
      if C.length ≠ 3 then none
      else
        let d1 := C.getD 0 0 + 256 * (C.getD 1 0 &&& 0x0F)
        let d2 := (C.getD 1 0 >>> 4) + 16 * C.getD 2 0
        let coefficients :=
          if d1 < 3329 then coefficients ++ [Int.ofNat d1] else coefficients
        let coefficients :=
          if d2 < 3329 ∧ coefficients.length < 256 then coefficients ++ [Int.ofNat d2]
          else coefficients
        sampleNttLoop xof fuel coefficients

/-- `sample_ntt(B)`.  A terminating run of the Python loop appends at least
one coefficient per iteration, hence finishes within 256 iterations; fuel
512 is therefore exact: `none` means the Python call raises or never
returns. -/
def sample_ntt (B : List Nat) : Option (List Int) :=
  if B.length ≠ 34 then none
  else sampleNttLoop ((xofInit).absorb B) 512 []

/-- `sample_poly_cbd(eta, B)`. -/
def sample_poly_cbd (eta : Nat) (B : List Nat) : Option (List Int) :=
  if eta ≠ 2 ∧ eta ≠ 3 then none
  else if B.length ≠ 64 * eta then none
  else
    let bits := bytes_to_bits B
    some ((List.range 256).map (fun i =>
      let start := i * 2 * eta
      let x : Nat := ((bits.drop start).take eta).sum
      let y : Nat := ((bits.drop (start + eta)).take eta).sum
      ((x : Int) - (y : Int)) % 3329))

/-! ### NTTEngine: `auxiliary/transform/functions.py` -/

/-- Precomputed ζ values (Appendix A table of the source). -/
def ZETA_PRECOMP : List Int :=
  [1, 1729, 2580, 3289, 2642, 630, 1897, 848, 1062, 1919, 193, 797, 2786, 3260, 569, 1746,
   296, 2447, 1339, 1476, 3046, 56, 2240, 1333, 1426, 2094, 535, 2882, 2393, 2879, 1974, 821,
   289, 331, 3253, 1756, 1197, 2304, 2277, 2055, 650, 1977, 2513, 632, 2865, 33, 1320, 1915,
   2319, 1435, 807, 452, 1438, 2868, 1534, 2402, 2647, 2617, 1481, 648, 2474, 3110, 1227, 910,
   17, 2761, 583, 2649, 1637, 723, 2288, 1100, 1409, 2662, 3281, 233, 756, 2156, 3015, 3050,
   1703, 1651, 2789, 1789, 1847, 952, 1461, 2687, 939, 2308, 2437, 2388, 733, 2337, 268, 641,
   1584, 2298, 2037, 3220, 375, 2549, 2090, 1645, 1063, 319, 2773, 757, 2099, 561, 2466, 2594,
   2804, 1092, 403, 1026, 1143, 2150, 2775, 886, 1722, 1212, 1874, 1029, 2110, 2935, 885, 2154]

/-- Precomputed γ values (ζ^(2·BitRev7(i)+1)), alternating signs as in the
source table. -/
def GAMMA_PRECOMP : List Int :=
  [17, -17, 2761, -2761, 583, -583, 2649, -2649, 1637, -1637, 723, -723, 2288, -2288, 1100, -1100,
   1409, -1409, 2662, -2662, 3281, -3281, 233, -233, 756, -756, 2156, -2156, 3015, -3015, 3050, -3050,
   1703, -1703, 1651, -1651, 2789, -2789, 1789, -1789, 1847, -1847, 952, -952, 1461, -1461, 2687, -2687,
   939, -939, 2308, -2308, 2437, -2437, 2388, -2388, 733, -733, 2337, -2337, 268, -268, 641, -641,
   1584, -1584, 2298, -2298, 2037, -2037, 3220, -3220, 375, -375, 2549, -2549, 2090, -2090, 1645, -1645,
   1063, -1063, 319, -319, 2773, -2773, 757, -757, 2099, -2099, 561, -561, 2466, -2466, 2594, -2594,
   2804, -2804, 1092, -1092, 403, -403, 1026, -1026, 1143, -1143, 2150, -2150, 2775, -2775, 886, -886,
   1722, -1722, 1212, -1212, 1874, -1874, 1029, -1029, 2110, -2110, 2935, -2935, 885, -885, 2154, -2154]

/-- `ZETA_PRECOMP_INV = [pow(z, -1, Q) for z in ZETA_PRECOMP]`.  Since
q = 3329 is prime and all table entries are nonzero mod q, Python's modular
inverse `pow(z, -1, q)` equals `z^(q-2) mod q`. -/
def ZETA_PRECOMP_INV : List Int :=
  ZETA_PRECOMP.map (fun z => Int.ofNat (z.toNat ^ 3327 % 3329))

/-- One block of `ntt`'s inner `for j in range(start, start+length)` loop.
For each `j` the loop reads the so-far untouched pair `f[j], f[j+length]`
and writes `t = (zeta * f[j+length]) % Q`, `f[j+length] = (f[j] - t) % Q`,
`f[j] = (f[j] + t) % Q`; over the whole block this is exactly a pairwise
butterfly of the block's two halves. -/
def nttButterfly (zeta : Int) (first second : List Int) : List Int :=
  (first.zipWith (fun a b => (a + (zeta * b) % 3329) % 3329) second) ++
  (first.zipWith (fun a b => (a - (zeta * b) % 3329) % 3329) second)

/-- The `for start in range(0, N, 2*length)` loop of `ntt`: one block of
`2*length` entries per iteration, consuming `ZETA_PRECOMP[k]` and
incrementing `k` once per block. -/
def nttBlocks (length : Nat) : Nat → Nat → List Int → List Int
  | _, 0, f => f
  | k, cnt + 1, f =>
    let zeta := ZETA_PRECOMP.getD k 0
    nttButterfly zeta (f.take length) ((f.drop length).take length) ++
      nttBlocks length (k + 1) cnt (f.drop (2 * length))

/-- The outer `while length >= 2` loop of `ntt`: `256 / (2*length)` blocks
per layer, the table index advancing by that many. -/
def nttLayers : List Nat → Nat → List Int → List Int
  | [], _, f => f
  | length :: rest, k, f =>
    nttLayers rest (k + 256 / (2 * length)) (nttBlocks length k (256 / (2 * length)) f)

/-- `ntt(f)`: Algorithm 9, layers 128 down to 2, ζ table index starting
at 1. -/
def ntt (f : List Int) : List Int :=
  nttLayers [128, 64, 32, 16, 8, 4, 2] 1 f

/-- One block of `ntt_inv`'s inner loop: `t = f[j]`,
`f[j] = (t + f[j+length]) % Q`,
`f[j+length] = (zeta_inv * ((f[j+length] - t) % Q)) % Q`. -/
def nttInvButterfly (zeta_inv : Int) (first second : List Int) : List Int :=
  (first.zipWith (fun t b => (t + b) % 3329) second) ++
  (first.zipWith (fun t b => (zeta_inv * ((b - t) % 3329)) % 3329) second)

/-- The block loop of `ntt_inv`; the inverse-table index `k` is decremented
once per block. -/
def nttInvBlocks (length : Nat) : Nat → Nat → List Int → List Int
  | _, 0, f => f
  | k, cnt + 1, f =>
    let zeta_inv := ZETA_PRECOMP_INV.getD k 0
    nttInvButterfly zeta_inv (f.take length) ((f.drop length).take length) ++
      nttInvBlocks length (k - 1) cnt (f.drop (2 * length))

/-- The outer `while length <= 128` loop of `ntt_inv`. -/
def nttInvLayers : List Nat → Nat → List Int → List Int
  | [], _, f => f
  | length :: rest, k, f =>
    nttInvLayers rest (k - 256 / (2 * length)) (nttInvBlocks length k (256 / (2 * length)) f)

/-- `ntt_inv(f_hat)`: Algorithm 10, layers 2 up to 128, inverse table index
starting at 127, then the final scaling by `n_inv = 3303`. -/
def ntt_inv (f_hat : List Int) : List Int :=
  (nttInvLayers [2, 4, 8, 16, 32, 64, 128] 127 f_hat).map (fun x => (x * 3303) % 3329)

/-- `base_case_multiply(a0, a1, b0, b1, gamma)`: Algorithm 12. -/
def base_case_multiply (a0 a1 b0 b1 gamma : Int) : Int × Int :=
  ((a0 * b0 % 3329 + a1 * b1 % 3329 * gamma % 3329) % 3329,
   (a0 * b1 % 3329 + a1 * b0 % 3329) % 3329)

/-- The `for i in range(128)` loop of `multiply_ntts`: iteration `i` writes
`h_hat[2i], h_hat[2i+1]` from `f_hat[2i], f_hat[2i+1]`,
`g_hat[2i], g_hat[2i+1]` and `GAMMA_PRECOMP[i]`; structurally this consumes
the γ table and the two inputs a coefficient pair at a time. -/
def multiplyLoop : List Int → List Int → List Int → List Int
  | gamma :: gammas, f0 :: f1 :: fr, g0 :: g1 :: gr =>
    let c := base_case_multiply f0 f1 g0 g1 gamma
    c.1 :: c.2 :: multiplyLoop gammas fr gr
  | _, _, _ => []

/-- `multiply_ntts(f_hat, g_hat)`: Algorithm 11. -/
def multiply_ntts (f_hat g_hat : List Int) : List Int :=
  multiplyLoop GAMMA_PRECOMP f_hat g_hat

/-! ### KPKE: `key-encryption/keygen.py`, `key_encryption/encrypt.py`,
`key_encryption/decrypt.py` -/

/-- `poly_add(a, b)`: coefficient-wise add mod q over `zip(a, b)`. -/
def poly_add (a b : List Int) : List Int :=
  a.zipWith (fun x y => (x + y) % 3329) b

/-- `k_pke_keygen(d, eta1, eta2)` with the two internal `os.urandom(32)`
seeds `r1, r2` made explicit parameters.  Returns
`((A, t_hat), (b_enc, s1, s2))`; `none` is any raised error (including a
`sample_ntt` call that never returns). -/
def k_pke_keygen (d : Nat) (r1 r2 : List Nat) (eta1 eta2 : Nat) :
    Option ((List Int × List Int) × (List Nat × List Int × List Int)) :=
  (PRF eta1 r1 [0x00]).bind fun seed_s1 =>
  (sample_poly_cbd eta1 seed_s1).bind fun s1 =>
  (PRF eta2 r1 [0x01]).bind fun seed_s2 =>
  (sample_poly_cbd eta2 seed_s2).bind fun s2 =>
  (sample_ntt (r2 ++ [0x00, 0x00])).bind fun A =>
  let s1_hat := ntt s1
  let s2_hat := ntt s2
  let product := multiply_ntts A s1_hat
  let t_hat := poly_add product s2_hat
  (byte_encode t_hat d).bind fun b_enc =>
  some ((A, t_hat), (b_enc, s1, s2))

/-- `encode_message(m)`: each of the 256 little-endian bits of the 32-byte
message becomes a coefficient `bit % q`. -/
def encode_message (m : List Nat) : Option (List Int) :=
  if m.length ≠ 32 then none
  else some ((bytes_to_bits m).map (fun bit => (Int.ofNat bit) % 3329))

/-- `k_pke_encrypt(ek_pke, m, r, d, eta)`: Algorithm 14 as implemented. -/
def k_pke_encrypt (ek_pke : List Int × List Int) (m r : List Nat) (d eta : Nat) :
    Option (List Nat) :=
  let A := ek_pke.1
  let t_hat := ek_pke.2
  (PRF eta r [0x00]).bind fun y_seed =>
  (PRF eta r [0x01]).bind fun e1_seed =>
  (PRF eta r [0x02]).bind fun e2_seed =>
  (sample_poly_cbd eta y_seed).bind fun y =>
  (sample_poly_cbd eta e1_seed).bind fun e1 =>
  (sample_poly_cbd eta e2_seed).bind fun e2 =>
  let y_hat := ntt y
  let e1_hat := ntt e1
  let e2_hat := ntt e2
  let A_times_y := multiply_ntts A y_hat
  let u_hat := poly_add A_times_y e1_hat
  let t_times_y := multiply_ntts t_hat y_hat
  let v_hat := poly_add t_times_y e2_hat
  (encode_message m).bind fun m_poly =>
  let m_hat := ntt m_poly
  let v_hat := poly_add v_hat m_hat
  (u_hat.mapM (fun coeff => compress coeff d)).bind fun u_hat_compressed =>
  (byte_encode u_hat_compressed d).bind fun c1 =>
  (v_hat.mapM (fun coeff => compress coeff d)).bind fun v_hat_compressed =>
  (byte_encode v_hat_compressed d).bind fun c2 =>
  some (c1 ++ c2)

/-- `decode_message(poly)`: threshold each of the first 256 coefficients at
`q // 2 = 1664` and pack the bits. -/
def decode_message (poly : List Int) : Option (List Nat) :=
  bits_to_bytes ((poly.take 256).map (fun coeff => if coeff < 1664 then 0 else 1))

/-- `k_pke_decrypt(dk_pke, c, d)`: Algorithm 15 as implemented (only `s1`
of the key is used). -/
def k_pke_decrypt (dk_pke : List Nat × List Int × List Int) (c : List Nat) (d : Nat) :
    Option (List Nat) :=
  let s1 := dk_pke.2.1
  let poly_bytes_len := (256 * d) / 8
  let c1 := c.take poly_bytes_len
  let c2 := c.drop poly_bytes_len
  (byte_decode c1 d).bind fun u_hat_compressed =>
  (byte_decode c2 d).bind fun v_hat_compressed =>
  (u_hat_compressed.mapM (fun y => decompress y d)).bind fun u_hat =>
  (v_hat_compressed.mapM (fun y => decompress y d)).bind fun v_hat =>
  let s1_hat := ntt s1
  let u_s1_hat := multiply_ntts u_hat s1_hat
  let w_hat := v_hat.zipWith (fun vh uh => (vh - uh) % 3329) u_s1_hat
  let w := ntt_inv w_hat
  decode_message w

/-! ### MLKEM internal routines: `ml_kem_internal/{keygen,encaps,decaps}.py`.
The Python code wraps the K-PKE keys in 1-tuples (`ek = (ek_pke,)`); the
wrapper is the identity here, so `ek[0]` is `ek` itself. -/

/-- `ml_kem_keygen_internal(d)` with the K-PKE seeds explicit. -/
def ml_kem_keygen_internal (d : Nat) (r1 r2 : List Nat) :
    Option ((List Int × List Int) × (List Nat × List Int × List Int)) :=
  k_pke_keygen d r1 r2 2 2

/-- ASCII decimal digits of a nonnegative number, most significant first
(`repr` of a Python int). -/
def pyReprNat (fuel n : Nat) : List Nat :=
  match fuel with
  | 0 => []
  | fuel + 1 => if n < 10 then [48 + n] else pyReprNat fuel (n / 10) ++ [48 + n % 10]

/-- `repr` of a coefficient (always in `[0, q)` where used). -/
def pyReprInt (x : Int) : List Nat := pyReprNat 10 x.toNat

/-- `repr` of a Python list of ints: `[a, b, ...]` (0x5B `[`, 0x2C `,`,
0x20 space, 0x5D `]`). -/
def pyReprIntList (l : List Int) : List Nat :=
  [0x5B] ++ (List.intercalate [0x2C, 0x20] (l.map pyReprInt)) ++ [0x5D]

/-- `repr` of the `(A, t_hat)` pair: `(reprA, reprT)` with `(`, `, `, `)`. -/
def pyReprEkPke (ek_pke : List Int × List Int) : List Nat :=
  [0x28] ++ pyReprIntList ek_pke.1 ++ [0x2C, 0x20] ++ pyReprIntList ek_pke.2 ++ [0x29]

/-- `ml_kem_encaps_internal(ek, r, d)`: hashes the `repr` of the K-PKE
public key, derives `ephemeral_r = G(H(repr(ek_pke)) + r)[0]`, encrypts it
under K-PKE using itself as randomness, and returns `(c, H(ephemeral_r))`. -/
def ml_kem_encaps_internal (ek : List Int × List Int) (r : List Nat) (d : Nat) :
    Option (List Nat × List Nat) :=
  let ek_pke := ek
  let hashed_ek := H (pyReprEkPke ek_pke)
  let ephemeral_input := hashed_ek ++ r
  let ephemeral_r := (G ephemeral_input).1
  (k_pke_encrypt ek_pke ephemeral_r ephemeral_r d 2).bind fun c =>
  some (c, H ephemeral_r)

/-- `ml_kem_decaps_internal(dk, c, d)`: `K = H(k_pke_decrypt(dk_pke, c, d))`. -/
def ml_kem_decaps_internal (dk : List Nat × List Int × List Int) (c : List Nat) (d : Nat) :
    Option (List Nat) :=
  (k_pke_decrypt dk c d).bind fun ephemeral_r =>
  some (H ephemeral_r)

/-! ### Evaluation-friendly forms

The faithful embeddings above mirror the Python loops, including the
re-computed `squeeze` call inside `sample_ntt`'s loop and the `for i in
range(256)` index arithmetic of `sample_poly_cbd` and `byte_decode`.  The
forms below compute the same functions with the XOF chunk hoisted (it never
changes) and the bit stream consumed front-to-back; they are proved equal
to the faithful embeddings in the theorems section and are used to evaluate
the faithful functions on concrete inputs. -/

/-- `sampleNttLoop` with the (constant) 3-byte squeeze result as an
explicit argument. -/
def sampleNttLoopC (C : List Nat) : Nat → List Int → Option (List Int)
  | 0, _ => none
  | fuel + 1, coefficients =>
    if coefficients.length ≥ 256 then some coefficients
    else
      if C.length ≠ 3 then none
      else
        let d1 := C.getD 0 0 + 256 * (C.getD 1 0 &&& 0x0F)
        let d2 := (C.getD 1 0 >>> 4) + 16 * C.getD 2 0
        let coefficients :=
          if d1 < 3329 then coefficients ++ [Int.ofNat d1] else coefficients
        let coefficients :=
          if d2 < 3329 ∧ coefficients.length < 256 then coefficients ++ [Int.ofNat d2]
          else coefficients
        sampleNttLoopC C fuel coefficients

/-- `sample_ntt` with the squeeze hoisted out of the loop. -/
def sample_ntt_fast (B : List Nat) : Option (List Int) :=
  if B.length ≠ 34 then none
  else sampleNttLoopC (((xofInit).absorb B).squeeze 3) 512 []

/-- The body of `sample_poly_cbd`, consuming `2*eta` bits per
coefficient. -/
def cbdLoop (eta : Nat) : Nat → List Nat → List Int
  | 0, _ => []
  | n + 1, bits =>
    ((((bits.take eta).sum : Nat) : Int) - (((bits.drop eta).take eta).sum : Nat)) % 3329 ::
      cbdLoop eta n (bits.drop (2 * eta))

/-- `sample_poly_cbd` in consuming form. -/
def sample_poly_cbd_fast (eta : Nat) (B : List Nat) : Option (List Int) :=
  if eta ≠ 2 ∧ eta ≠ 3 then none
  else if B.length ≠ 64 * eta then none
  else some (cbdLoop eta 256 (bytes_to_bits B))

/-- The body of `byte_decode`, consuming `d` bits per coefficient. -/
def byteDecodeLoop (m d : Nat) : Nat → List Nat → Option (List Int)
  | 0, _ => some []
  | n + 1, bits =>
    let chunk := bits.take d
    if chunk.length ≠ d then none
    else
      (byteDecodeLoop m d n (bits.drop d)).map (fun rest =>
        Int.ofNat ((chunk.enum.foldl (fun acc p => acc + (p.2 <<< p.1)) 0) % m) :: rest)

/-- `byte_decode` in consuming form. -/
def byte_decode_fast (B : List Nat) (d : Nat) : Option (List Int) :=
  let m : Nat := if d < 12 then 2 ^ d else 3329
  if B.length ≠ (256 * d) / 8 then none
  else byteDecodeLoop m d 256 (bytes_to_bits B)

/-- The length of a list modulo 8, computed by discarding eight elements at
a time (evaluation of `List.length` on a long bit list nests one stack
frame per element; this form runs in constant stack). -/
def mod8Len : List Nat → Nat
  | _ :: _ :: _ :: _ :: _ :: _ :: _ :: _ :: rest => mod8Len rest
  | short => short.length

/-- `bits_to_bytes` with the constant-stack length check. -/
def bits_to_bytes_fast (bits : List Nat) : Option (List Nat) :=
  if mod8Len bits ≠ 0 then none
  else if bits.all (fun b => b ≤ 1) then some (bytesOfBitsAux bits)
  else none

/-- `byte_encode` with the tail-recursive length. -/
def byte_encode_fast (F : List Int) (d : Nat) : Option (List Nat) :=
  if F.length ≠ 256 then none
  else
    let m : Int := if d < 12 then 2 ^ d else 3329
    if (256 * d) % 8 ≠ 0 then none
    else if F.all (fun x => 0 ≤ x ∧ x < m) then
      bits_to_bytes_fast (F.flatMap (fun x => (List.range d).map (fun j => (x.toNat >>> j) &&& 1)))
    else none

/-! ### Concrete inputs used to settle the claims -/

/-- The all-zero 34-byte `sample_ntt` input. -/
def zeroSeed34 : List Nat := List.replicate 34 0

/-- A 32-byte KeyGen seed `r1` (all zero bytes). -/
def seedR1 : List Nat := List.replicate 32 0

/-- A 32-byte KeyGen seed `r2` = `02 00 ... 00`, chosen so that the XOF
chunk of `r2 + b"\x00\x00"` yields candidates below q and `sample_ntt`
terminates. -/
def seedR2 : List Nat := 0x02 :: List.replicate 31 0

/-- A concrete ring element `x^2` (the repo's own NTT test uses `1 + x`,
whose NTT happens to be the all-ones vector). -/
def polyXsq : List Int := [0, 0, 1] ++ List.replicate 253 0

/-- A 384-byte `byte_decode` input whose first 12-bit chunk is 4095. -/
def badB12 : List Nat := [0xFF, 0x0F] ++ List.replicate 382 0

/-- A concrete in-range 256-coefficient array for the `byte_encode` /
`byte_decode` round-trip witness. -/
def coeffs256 : List Int := (List.range 256).map (fun i => (Int.ofNat (13 * i) % 3329))

/-- The value of a little-endian bit list (head = least significant). -/
def bitsVal : List Nat → Nat
  | [] => 0
  | b :: t => b + 2 * bitsVal t

/-! ## Theorems

First the equivalences between the faithful embeddings and their
evaluation-friendly forms, then the supporting lemmas, then the claims. -/

/-- The XOF object's squeeze result never changes, so the squeeze can be
hoisted out of `sample_ntt`'s loop. -/
theorem sampleNttLoop_eq (xof : XOF) (fuel : Nat) (acc : List Int) :
    sampleNttLoop xof fuel acc = sampleNttLoopC (xof.squeeze 3) fuel acc := by
  induction fuel generalizing acc with
  | zero => rfl
  | succ n ih => simp only [sampleNttLoop, sampleNttLoopC, ih]

/-- `sample_ntt` agrees with its hoisted form. -/
theorem sample_ntt_eq_fast (B : List Nat) : sample_ntt B = sample_ntt_fast B := by
  simp only [sample_ntt, sample_ntt_fast, sampleNttLoop_eq]

/-- `mod8Len` computes the length mod 8. -/
theorem mod8Len_eq (l : List Nat) : mod8Len l = l.length % 8 := by
  induction l using mod8Len.induct with
  | case1 b0 b1 b2 b3 b4 b5 b6 b7 rest ih =>
    simp only [mod8Len, ih, List.length_cons]
    omega
  | case2 short h =>
    rw [mod8Len.eq_def]
    split
    · next b0 b1 b2 b3 b4 b5 b6 b7 rest =>
      exact absurd rfl (h b0 b1 b2 b3 b4 b5 b6 b7 rest)
    · next =>
      rcases short with _ | ⟨a, _ | ⟨b, _ | ⟨c, _ | ⟨d, _ | ⟨e, _ | ⟨f, _ | ⟨g, _ | ⟨x, t⟩⟩⟩⟩⟩⟩⟩⟩ <;>
        first
          | exact absurd rfl (h _ _ _ _ _ _ _ _ _)
          | simp

/-- `bits_to_bytes` agrees with its constant-stack form. -/
theorem bits_to_bytes_eq_fast (bits : List Nat) :
    bits_to_bytes bits = bits_to_bytes_fast bits := by
  simp [bits_to_bytes, bits_to_bytes_fast, mod8Len_eq]

/-- `byte_encode` agrees with its tail-recursive-length form. -/
theorem byte_encode_eq_fast (F : List Int) (d : Nat) :
    byte_encode F d = byte_encode_fast F d := by
  simp only [byte_encode, byte_encode_fast, bits_to_bytes_eq_fast]

/-- The indexed slices of `sample_poly_cbd` read the bit stream
front-to-back. -/
theorem cbdRange_eq (eta : Nat) : ∀ (n : Nat) (bits : List Nat),
    (List.range n).map (fun i =>
      let start := i * 2 * eta
      let x : Nat := ((bits.drop start).take eta).sum
      let y : Nat := ((bits.drop (start + eta)).take eta).sum
      ((x : Int) - (y : Int)) % 3329) = cbdLoop eta n bits := by
  intro n
  induction n with
  | zero => intro bits; rfl
  | succ m ih =>
    intro bits
    rw [List.range_succ_eq_map, List.map_cons, List.map_map, cbdLoop]
    congr 1
    · simp
    · rw [← ih (bits.drop (2 * eta))]
      refine List.map_congr_left (fun i _ => ?_)
      have h1 : Nat.succ i * 2 * eta = i * 2 * eta + 2 * eta := by
        rw [Nat.succ_eq_add_one]; ring
      have h2 : Nat.succ i * 2 * eta + eta = i * 2 * eta + eta + (2 * eta) := by
        rw [Nat.succ_eq_add_one]; ring
      have h3 : eta + (2 * eta + i * 2 * eta) = 2 * eta + (eta + i * 2 * eta) := by ring
      simp only [Function.comp, h1, h2, List.drop_drop, Nat.add_comm, h3]

/-- `sample_poly_cbd` agrees with its consuming form. -/
theorem sample_poly_cbd_eq_fast (eta : Nat) (B : List Nat) :
    sample_poly_cbd eta B = sample_poly_cbd_fast eta B := by
  simp only [sample_poly_cbd, sample_poly_cbd_fast, cbdRange_eq]

/-- `mapM` over a mapped list composes. -/
theorem mapM_map_comp {α β γ : Type} (g : α → β) (f : β → Option γ) :
    ∀ l : List α, (l.map g).mapM f = l.mapM (fun a => f (g a)) := by
  intro l
  induction l with
  | nil => rfl
  | cons a t ih => rw [List.map_cons, List.mapM_cons, List.mapM_cons, ih]

/-- The indexed chunks of `byte_decode` read the bit stream front-to-back. -/
theorem decodeRange_eq (d m : Nat) : ∀ (n : Nat) (bits : List Nat),
    (List.range n).mapM (fun i =>
      let chunk := (bits.drop (i * d)).take d
      if chunk.length ≠ d then none
      else some (Int.ofNat ((chunk.enum.foldl (fun acc p => acc + (p.2 <<< p.1)) 0) % m)))
    = byteDecodeLoop m d n bits := by
  intro n
  induction n with
  | zero => intro bits; rfl
  | succ k ih =>
    intro bits
    rw [List.range_succ_eq_map, List.mapM_cons, mapM_map_comp, byteDecodeLoop]
    have hf : (fun a : Nat =>
        let chunk := (bits.drop (Nat.succ a * d)).take d
        if chunk.length ≠ d then none
        else some (Int.ofNat ((chunk.enum.foldl (fun acc p => acc + (p.2 <<< p.1)) 0) % m)))
        = (fun a : Nat =>
        let chunk := (((bits.drop d).drop (a * d)).take d)
        if chunk.length ≠ d then none
        else some (Int.ofNat ((chunk.enum.foldl (fun acc p => acc + (p.2 <<< p.1)) 0) % m))) := by
      funext a
      have h1 : Nat.succ a * d = a * d + d := Nat.succ_mul a d
      have h2 : a * d + d = d + a * d := Nat.add_comm _ _
      simp only [List.drop_drop, h1, h2]
    rw [hf, ih (bits.drop d)]
    simp only [Nat.zero_mul, List.drop_zero]
    by_cases hL : bits.length < d
    · simp [hL]
    · simp [hL, Option.map_eq_bind]

/-- `byte_decode` agrees with its consuming form. -/
theorem byte_decode_eq_fast (B : List Nat) (d : Nat) :
    byte_decode B d = byte_decode_fast B d := by
  simp only [byte_decode, byte_decode_fast, decodeRange_eq]

/-! ### `d = 12` is rejected by the compression layer -/

/-- `compress` rejects `d = 12` for every input. -/
theorem compress_twelve (x : Int) : compress x 12 = none := rfl

/-- `decompress` rejects `d = 12` for every input. -/
theorem decompress_twelve (y : Int) : decompress y 12 = none := rfl

/-- A successful `mapM` preserves the length. -/
theorem mapM_some_length {α β : Type} (f : α → Option β) :
    ∀ (l : List α) (ys : List β), l.mapM f = some ys → ys.length = l.length := by
  intro l
  induction l with
  | nil =>
    intro ys h
    simp [List.mapM.loop] at h
    simp [← h]
  | cons a t ih =>
    intro ys h
    rw [List.mapM_cons] at h
    cases hfa : f a with
    | none => rw [hfa] at h; simp at h
    | some b =>
      rw [hfa] at h
      cases hrest : t.mapM f with
      | none => rw [hrest] at h; simp at h
      | some bs =>
        rw [hrest] at h
        simp at h
        simp [← h, ih bs hrest]

/-- `mapM` of an everywhere-failing function fails on any nonempty list. -/
theorem mapM_cons_none {α β : Type} (f : α → Option β) (a : α) (t : List α)
    (h : f a = none) : (a :: t).mapM f = none := by
  rw [List.mapM_cons, h]
  rfl

/-- `k_pke_encrypt` at `d = 12` fails for every input: every execution path
either fails earlier (`PRF`, the CBD sampler, `encode_message`) or reaches
the `compress` stage, whose `d`-range check rejects 12. -/
theorem k_pke_encrypt_twelve_none (ek_pke : List Int × List Int) (m r : List Nat) (eta : Nat) :
    k_pke_encrypt ek_pke m r 12 eta = none := by
  simp only [k_pke_encrypt]
  cases PRF eta r [0x00] with
  | none => rfl
  | some y_seed =>
  cases PRF eta r [0x01] with
  | none => rfl
  | some e1_seed =>
  cases PRF eta r [0x02] with
  | none => rfl
  | some e2_seed =>
  simp only [Option.some_bind]
  cases sample_poly_cbd eta y_seed with
  | none => rfl
  | some y =>
  cases sample_poly_cbd eta e1_seed with
  | none => rfl
  | some e1 =>
  cases sample_poly_cbd eta e2_seed with
  | none => rfl
  | some e2 =>
  simp only [Option.some_bind]
  cases encode_message m with
  | none => rfl
  | some m_poly =>
  simp only [Option.some_bind]
  cases hu : poly_add (multiply_ntts ek_pke.1 (ntt y)) (ntt e1) with
  | nil => rfl
  | cons a t => rw [mapM_cons_none _ a t (compress_twelve a)]; rfl

/-- `byte_decode` only succeeds with exactly 256 coefficients. -/
theorem byte_decode_some_length (B : List Nat) (d : Nat) (F : List Int)
    (h : byte_decode B d = some F) : F.length = 256 := by
  simp only [byte_decode] at h
  split at h
  · exact absurd h (by simp)
  · have := mapM_some_length _ _ _ h
    simpa using this

/-- `k_pke_decrypt` at `d = 12` fails for every input: either a ciphertext
half has the wrong length for `byte_decode`, or the `decompress` stage
rejects `d = 12`. -/
theorem k_pke_decrypt_twelve_none (dk_pke : List Nat × List Int × List Int) (c : List Nat) :
    k_pke_decrypt dk_pke c 12 = none := by
  simp only [k_pke_decrypt]
  cases h1 : byte_decode (c.take ((256 * 12) / 8)) 12 with
  | none => rfl
  | some u_c =>
  cases h2 : byte_decode (c.drop ((256 * 12) / 8)) 12 with
  | none => rfl
  | some v_c =>
  simp only [Option.some_bind]
  have hlen : u_c.length = 256 := byte_decode_some_length _ _ _ h1
  cases u_c with
  | nil => simp at hlen
  | cons a t => rw [mapM_cons_none _ a t (decompress_twelve a)]; rfl

/-- `ml_kem_encaps_internal` at `d = 12` fails for every input. -/
theorem ml_kem_encaps_internal_twelve_none (ek : List Int × List Int) (r : List Nat) :
    ml_kem_encaps_internal ek r 12 = none := by
  simp only [ml_kem_encaps_internal, k_pke_encrypt_twelve_none, Option.none_bind]

/-! ### Coefficient-range preservation -/

/-- `% 3329` lands in `[0, 3329)`. -/
theorem int_emod_q_range (a : Int) : 0 ≤ a % 3329 ∧ a % 3329 < 3329 :=
  ⟨Int.emod_nonneg a (by norm_num), Int.emod_lt_of_pos a (by norm_num)⟩

/-- Members of a `zipWith` are images of the function. -/
theorem mem_zipWith_imp {α : Type} {f : α → α → α} :
    ∀ {l1 l2 : List α} {x : α}, x ∈ List.zipWith f l1 l2 → ∃ a b, x = f a b := by
  intro l1
  induction l1 with
  | nil => intro l2 x h; simp at h
  | cons a t ih =>
    intro l2 x h
    cases l2 with
    | nil => simp at h
    | cons b t2 =>
      rw [List.zipWith_cons_cons] at h
      rcases List.mem_cons.mp h with h1 | h2
      · exact ⟨a, b, h1⟩
      · exact ih h2

/-- Butterfly outputs are reduced mod q. -/
theorem nttButterfly_range (zeta : Int) (first second : List Int) :
    ∀ x ∈ nttButterfly zeta first second, 0 ≤ x ∧ x < 3329 := by
  intro x hx
  rcases List.mem_append.mp hx with h | h <;>
    · obtain ⟨a, b, rfl⟩ := mem_zipWith_imp h
      exact int_emod_q_range _

/-- Inverse butterfly outputs are reduced mod q. -/
theorem nttInvButterfly_range (zeta_inv : Int) (first second : List Int) :
    ∀ x ∈ nttInvButterfly zeta_inv first second, 0 ≤ x ∧ x < 3329 := by
  intro x hx
  rcases List.mem_append.mp hx with h | h <;>
    · obtain ⟨a, b, rfl⟩ := mem_zipWith_imp h
      exact int_emod_q_range _

/-- The `ntt` block loop preserves the range invariant. -/
theorem nttBlocks_range (length : Nat) :
    ∀ (cnt k : Nat) (f : List Int), (∀ x ∈ f, 0 ≤ x ∧ x < 3329) →
      ∀ x ∈ nttBlocks length k cnt f, 0 ≤ x ∧ x < 3329 := by
  intro cnt
  induction cnt with
  | zero => intro k f hf x hx; exact hf x (by simpa [nttBlocks] using hx)
  | succ n ih =>
    intro k f hf x hx
    simp only [nttBlocks] at hx
    rcases List.mem_append.mp hx with h | h
    · exact nttButterfly_range _ _ _ x h
    · exact ih (k + 1) (f.drop (2 * length)) (fun y hy => hf y (List.mem_of_mem_drop hy)) x h

/-- The `ntt` layer loop preserves the range invariant. -/
theorem nttLayers_range :
    ∀ (ls : List Nat) (k : Nat) (f : List Int), (∀ x ∈ f, 0 ≤ x ∧ x < 3329) →
      ∀ x ∈ nttLayers ls k f, 0 ≤ x ∧ x < 3329 := by
  intro ls
  induction ls with
  | nil => intro k f hf x hx; exact hf x (by simpa [nttLayers] using hx)
  | cons length rest ih =>
    intro k f hf x hx
    simp only [nttLayers] at hx
    exact ih _ _ (nttBlocks_range length _ k f hf) x hx

/-- `ntt` maps in-range inputs to in-range outputs. -/
theorem ntt_range (f : List Int) (hf : ∀ x ∈ f, 0 ≤ x ∧ x < 3329) :
    ∀ x ∈ ntt f, 0 ≤ x ∧ x < 3329 :=
  nttLayers_range _ 1 f hf

/-- Every coefficient of `ntt_inv` passes through the final `% 3329`. -/
theorem ntt_inv_range (f_hat : List Int) : ∀ x ∈ ntt_inv f_hat, 0 ≤ x ∧ x < 3329 := by
  intro x hx
  simp only [ntt_inv, List.mem_map] at hx
  obtain ⟨y, _, rfl⟩ := hx
  exact int_emod_q_range _

/-- Every coefficient written by `multiply_ntts` is a `base_case_multiply`
output, hence reduced mod q. -/
theorem multiplyLoop_range :
    ∀ (gs f g : List Int), ∀ x ∈ multiplyLoop gs f g, 0 ≤ x ∧ x < 3329 := by
  intro gs
  induction gs with
  | nil => intro f g x hx; simp [multiplyLoop] at hx
  | cons gamma gs ih =>
    intro f g x hx
    rcases f with _ | ⟨f0, _ | ⟨f1, fr⟩⟩ <;> rcases g with _ | ⟨g0, _ | ⟨g1, gr⟩⟩ <;>
      simp only [multiplyLoop, List.not_mem_nil, List.mem_cons] at hx
    rcases hx with h | h | h
    · exact h ▸ int_emod_q_range _
    · exact h ▸ int_emod_q_range _
    · exact ih _ _ x h

/-- `poly_add` outputs are reduced mod q. -/
theorem poly_add_range (a b : List Int) : ∀ x ∈ poly_add a b, 0 ≤ x ∧ x < 3329 := by
  intro x hx
  obtain ⟨u, v, rfl⟩ := mem_zipWith_imp hx
  exact int_emod_q_range _

/-- `decompress` at `d ∈ [1,11]` maps `[0, 2^d)` into `[0, 3329)`. -/
theorem decompress_range (y : Int) (d : Nat) (h1 : 1 ≤ d) (h2 : d ≤ 11)
    (hy0 : 0 ≤ y) (hy : y < 2 ^ d) :
    ∃ x, decompress y d = some x ∧ 0 ≤ x ∧ x < 3329 := by
  have hd : 1 ≤ d ∧ d < 12 := ⟨h1, by omega⟩
  have hpow : (0 : Int) < 2 ^ d := by positivity
  have hnum : (0 : Int) ≤ y * 3329 + 2 ^ (d - 1) := by positivity
  have hfd : (y * 3329 + 2 ^ (d - 1)).fdiv (2 ^ d) = (y * 3329 + 2 ^ (d - 1)) / 2 ^ d :=
    Int.fdiv_eq_ediv _ hpow.le
  have heq : decompress y d = some ((y * 3329 + 2 ^ (d - 1)).fdiv (2 ^ d)) := by
    simp only [decompress]
    rw [if_pos hd]
  refine ⟨_, heq, ?_, ?_⟩
  · rw [hfd]
    exact Int.ediv_nonneg hnum hpow.le
  · rw [hfd]
    rw [Int.ediv_lt_iff_lt_mul hpow]
    have hstep : 2 ^ (d - 1) < (3329 : Int) := by
      have : (2 : Int) ^ (d - 1) ≤ 2 ^ 10 := by
        apply pow_le_pow_right₀ (by norm_num)
        omega
      norm_num at this ⊢
      omega
    have hy' : y ≤ 2 ^ d - 1 := by omega
    have : y * 3329 ≤ (2 ^ d - 1) * 3329 :=
      mul_le_mul_of_nonneg_right hy' (by norm_num)
    nlinarith

/-! ### The `byte_encode` / `byte_decode` round trip -/

/-- The decode fold over an enumerated bit chunk computes its little-endian
value. -/
theorem foldl_enumFrom (bits : List Nat) : ∀ (k acc : Nat),
    (List.enumFrom k bits).foldl (fun acc p => acc + (p.2 <<< p.1)) acc =
      acc + 2 ^ k * bitsVal bits := by
  induction bits with
  | nil => intro k acc; simp [bitsVal]
  | cons b t ih =>
    intro k acc
    rw [List.enumFrom_cons, List.foldl_cons, ih (k + 1), bitsVal]
    simp only [Nat.shiftLeft_eq, Nat.pow_succ]
    ring

/-- The bit expansion of `x` to `d` little-endian bits has value `x % 2^d`. -/
theorem bitsVal_toBits : ∀ (d x : Nat),
    bitsVal ((List.range d).map (fun j => (x >>> j) &&& 1)) = x % 2 ^ d := by
  intro d
  induction d with
  | zero => intro x; simp [bitsVal, Nat.mod_one]
  | succ d ih =>
    intro x
    rw [List.range_succ_eq_map, List.map_cons, List.map_map, bitsVal]
    have hf : ((fun j => (x >>> j) &&& 1) ∘ Nat.succ) =
        (fun j => ((x >>> 1) >>> j) &&& 1) := by
      funext j
      have : x >>> (1 + j) = (x >>> 1) >>> j := Nat.shiftRight_add x 1 j
      simp only [Function.comp, Nat.succ_eq_add_one, Nat.add_comm j 1, this]
    rw [hf, ih (x >>> 1)]
    have h1 : x >>> 0 &&& 1 = x % 2 := by
      rw [Nat.shiftRight_zero, Nat.and_one_is_mod]
    have h2 : x >>> 1 = x / 2 := Nat.shiftRight_one x
    have h3 : (2 : Nat) ^ (d + 1) = 2 * 2 ^ d := by ring
    rw [h1, h2, h3, Nat.mod_mul]

/-- Unpacking the byte packed from 8 bits recovers the bits. -/
theorem byteOfBits_bits :
    ∀ b0 ∈ [0, 1], ∀ b1 ∈ [0, 1], ∀ b2 ∈ [0, 1], ∀ b3 ∈ [0, 1],
    ∀ b4 ∈ [0, 1], ∀ b5 ∈ [0, 1], ∀ b6 ∈ [0, 1], ∀ b7 ∈ ([0, 1] : List Nat),
      (List.range 8).map (fun j => (byteOfBits [b0, b1, b2, b3, b4, b5, b6, b7] >>> j) &&& 1) =
        [b0, b1, b2, b3, b4, b5, b6, b7] := by decide

/-- A bit bounded by 1 is a member of `[0, 1]`. -/
theorem mem_of_le_one {b : Nat} (h : b ≤ 1) : b ∈ ([0, 1] : List Nat) := by
  interval_cases b <;> simp

/-- `bytes_to_bits` inverts the byte packing of a valid bit list. -/
theorem bytes_to_bits_bytesOfBitsAux :
    ∀ bits : List Nat, (∀ b ∈ bits, b ≤ 1) → bits.length % 8 = 0 →
      bytes_to_bits (bytesOfBitsAux bits) = bits := by
  intro bits
  induction bits using bytesOfBitsAux.induct with
  | case1 b0 b1 b2 b3 b4 b5 b6 b7 rest ih =>
    intro hb h8
    have hrest : rest.length % 8 = 0 := by
      simp only [List.length_cons] at h8
      omega
    have hbr : ∀ b ∈ rest, b ≤ 1 := fun b hb' => hb b (by simp [hb'])
    have hm : ∀ b ∈ [b0, b1, b2, b3, b4, b5, b6, b7], b ∈ ([0, 1] : List Nat) := by
      intro b hb'
      refine mem_of_le_one (hb b ?_)
      simp only [List.mem_cons, List.not_mem_nil, or_false] at hb' ⊢
      tauto
    rw [bytesOfBitsAux]
    show (List.range 8).map
        (fun j => (byteOfBits [b0, b1, b2, b3, b4, b5, b6, b7] >>> j) &&& 1)
        ++ bytes_to_bits (bytesOfBitsAux rest) = _
    rw [ih hbr hrest]
    rw [byteOfBits_bits b0 (hm b0 (by simp)) b1 (hm b1 (by simp)) b2 (hm b2 (by simp))
      b3 (hm b3 (by simp)) b4 (hm b4 (by simp)) b5 (hm b5 (by simp))
      b6 (hm b6 (by simp)) b7 (hm b7 (by simp))]
    rfl
  | case2 short h =>
    intro _ h8
    rcases short with _ | ⟨a, _ | ⟨b, _ | ⟨c, _ | ⟨d, _ | ⟨e, _ | ⟨f, _ | ⟨g, _ | ⟨x, t⟩⟩⟩⟩⟩⟩⟩⟩
    · rfl
    · simp at h8
    · simp at h8
    · simp at h8
    · simp at h8
    · simp at h8
    · simp at h8
    · simp at h8
    · exact absurd rfl (h a b c d e f g x t)

/-- The byte packing produces one byte per 8 bits. -/
theorem bytesOfBitsAux_length :
    ∀ bits : List Nat, (bytesOfBitsAux bits).length = bits.length / 8 := by
  intro bits
  induction bits using bytesOfBitsAux.induct with
  | case1 b0 b1 b2 b3 b4 b5 b6 b7 rest ih =>
    rw [bytesOfBitsAux]
    simp only [List.length_cons, ih]
    omega
  | case2 short h =>
    rcases short with _ | ⟨a, _ | ⟨b, _ | ⟨c, _ | ⟨d, _ | ⟨e, _ | ⟨f, _ | ⟨g, _ | ⟨x, t⟩⟩⟩⟩⟩⟩⟩⟩
    · rw [show bytesOfBitsAux [] = [] from rfl]; simp
    · rw [show bytesOfBitsAux [a] = [] from rfl]; simp
    · rw [show bytesOfBitsAux [a,b] = [] from rfl]; simp
    · rw [show bytesOfBitsAux [a,b,c] = [] from rfl]; simp
    · rw [show bytesOfBitsAux [a,b,c,d] = [] from rfl]; simp
    · rw [show bytesOfBitsAux [a,b,c,d,e] = [] from rfl]; simp
    · rw [show bytesOfBitsAux [a,b,c,d,e,f] = [] from rfl]; simp
    · rw [show bytesOfBitsAux [a,b,c,d,e,f,g] = [] from rfl]; simp
    · exact absurd rfl (h a b c d e f g x t)

/-- The bit stream of `byte_encode` has `d` bits per coefficient. -/
theorem flatMapBits_length (d : Nat) :
    ∀ F : List Int,
      (F.flatMap (fun x => (List.range d).map (fun j => (x.toNat >>> j) &&& 1))).length
        = F.length * d := by
  intro F
  induction F with
  | nil => simp
  | cons x t ih =>
    rw [List.flatMap_cons]
    simp only [List.length_append, List.length_map, List.length_range, List.length_cons, ih]
    ring

/-- On valid input `byte_encode` succeeds and returns the packed bits. -/
theorem byte_encode_some (F : List Int) (d : Nat) (hlen : F.length = 256)
    (h8 : (256 * d) % 8 = 0)
    (hrange : ∀ x ∈ F, 0 ≤ x ∧ x < (if d < 12 then (2 : Int) ^ d else 3329)) :
    byte_encode F d = some (bytesOfBitsAux
      (F.flatMap (fun x => (List.range d).map (fun j => (x.toNat >>> j) &&& 1)))) := by
  simp only [byte_encode]
  rw [if_neg (by simp [hlen]), if_neg (by simp [h8])]
  rw [if_pos (by
    rw [List.all_eq_true]
    intro x hx
    exact decide_eq_true (hrange x hx))]
  simp only [bits_to_bytes]
  rw [if_neg (by rw [flatMapBits_length, hlen]; omega)]
  rw [if_pos (by
    rw [List.all_eq_true]
    intro b hb
    apply decide_eq_true
    simp only [List.mem_flatMap, List.mem_map] at hb
    obtain ⟨x, _, j, _, rfl⟩ := hb
    exact Nat.and_le_right)]

/-- Decoding the packed bit stream of an in-range coefficient list recovers
the list. -/
theorem byteDecodeLoop_flatMap (d m : Nat) (hm : m ≤ 2 ^ d) :
    ∀ F : List Int, (∀ x ∈ F, 0 ≤ x ∧ x < (m : Int)) →
      byteDecodeLoop m d F.length
        (F.flatMap (fun x => (List.range d).map (fun j => (x.toNat >>> j) &&& 1))) = some F := by
  intro F
  induction F with
  | nil => intro _; rfl
  | cons x t ih =>
    intro hr
    have hx := hr x (by simp)
    have hxm : x.toNat < m := by omega
    have hxd : x.toNat < 2 ^ d := lt_of_lt_of_le hxm hm
    rw [List.flatMap_cons, List.length_cons, byteDecodeLoop]
    have hcl : ((List.range d).map (fun j => (x.toNat >>> j) &&& 1)).length = d := by simp
    have htake : (((List.range d).map (fun j => (x.toNat >>> j) &&& 1)) ++
        (t.flatMap (fun x => (List.range d).map (fun j => (x.toNat >>> j) &&& 1)))).take d
        = (List.range d).map (fun j => (x.toNat >>> j) &&& 1) :=
      List.take_left' hcl
    have hdrop : (((List.range d).map (fun j => (x.toNat >>> j) &&& 1)) ++
        (t.flatMap (fun x => (List.range d).map (fun j => (x.toNat >>> j) &&& 1)))).drop d
        = t.flatMap (fun x => (List.range d).map (fun j => (x.toNat >>> j) &&& 1)) :=
      List.drop_left' hcl
    simp only [htake, hdrop, hcl]
    rw [if_neg (by simp)]
    rw [ih (fun y hy => hr y (by simp [hy]))]
    have hval : (((List.range d).map (fun j => (x.toNat >>> j) &&& 1)).enum.foldl
        (fun acc p => acc + (p.2 <<< p.1)) 0) = x.toNat := by
      rw [show ∀ l : List Nat, l.enum = List.enumFrom 0 l from fun _ => rfl]
      rw [foldl_enumFrom, bitsVal_toBits]
      simp [Nat.mod_eq_of_lt hxd]
    rw [hval, Nat.mod_eq_of_lt hxm]
    simp [Int.toNat_of_nonneg hx.1]

/-- Binding a `some`. -/
theorem some_bind_eq {α β : Type} (a : α) (f : α → Option β) : (some a).bind f = f a := rfl

/-- `bytes_to_bits` yields eight bits per byte. -/
theorem bytes_to_bits_length (data : List Nat) :
    (bytes_to_bits data).length = 8 * data.length := by
  induction data with
  | nil => rfl
  | cons b t ih =>
    simp only [bytes_to_bits, List.flatMap_cons, List.length_append, List.length_map,
      List.length_range, List.length_cons] at *
    omega

/-- `byteDecodeLoop` succeeds whenever the bit list has exactly `n` chunks
of `d` bits. -/
theorem byteDecodeLoop_isSome (m d : Nat) :
    ∀ (n : Nat) (bits : List Nat), bits.length = n * d →
      (byteDecodeLoop m d n bits).isSome = true := by
  intro n
  induction n with
  | zero => intro bits _; rfl
  | succ k ih =>
    intro bits hlen
    rw [Nat.succ_mul] at hlen
    have htake : (bits.take d).length = d := by
      rw [List.length_take]; omega
    simp only [byteDecodeLoop]
    rw [if_neg (by rw [htake]; omega)]
    have hrec := ih (bits.drop d) (by rw [List.length_drop]; omega)
    cases hd : byteDecodeLoop m d k (bits.drop d) with
    | none => rw [hd] at hrec; exact absurd hrec (by simp)
    | some v => rfl

/-! ### The claims -/

set_option maxRecDepth 100000
set_option maxHeartbeats 4000000

/-- Claim C1 (refuted): `sample_ntt` does not collect 256 coefficients for
every 34-byte input.  On the all-zero seed, `squeeze(3)` returns the same
chunk `[73, 223, 217]` on every iteration (the XOF restarts its stream
from the beginning on each call), and both 12-bit candidates of that
chunk, 3913 and 3485, are `≥ q = 3329`, so the Python `while` loop never
adds a coefficient and never terminates: the loop body yields `none` for
every fuel bound, and so does `sample_ntt`. -/
theorem claim_C1_sample_ntt_diverges :
    (∀ fuel : Nat, sampleNttLoop (xofInit.absorb zeroSeed34) fuel [] = none) ∧
      sample_ntt zeroSeed34 = none := by
  have hch : (xofInit.absorb zeroSeed34).squeeze 3 = [73, 223, 217] := by decide
  have hloop : ∀ fuel : Nat, sampleNttLoopC [73, 223, 217] fuel [] = none := by
    intro fuel
    induction fuel with
    | zero => rfl
    | succ n ih => exact ih
  constructor
  · intro fuel
    rw [sampleNttLoop_eq, hch]
    exact hloop fuel
  · rw [sample_ntt_eq_fast]
    simp only [sample_ntt_fast]
    rw [if_neg (by decide)]
    rw [hch]
    exact hloop 512

/-- Claim C2 (refuted): the XOF does not emit an advancing stream.  The
first two bytes of the SHAKE128 stream of the all-zero 34-byte seed are
`[73, 223]`, but two consecutive one-byte `squeeze` calls on the absorbed
object both return byte 73 (the object state is unchanged by `squeeze`):
the second call re-returns the first stream byte instead of the next
one. -/
theorem claim_C2_squeeze_rereturns :
    shake128 zeroSeed34 2 = [73, 223] ∧
      (xofInit.absorb zeroSeed34).squeeze 1 ++ (xofInit.absorb zeroSeed34).squeeze 1
        = [73, 73] := by decide

/-- Claim C3 (refuted): `k_pke_keygen(10)` does not succeed for every
choice of the two internal 32-byte seeds.  With the concrete seeds
`seedR1, seedR2` the NTT-domain key polynomial has coefficients `≥ 2^10`,
so the range check of `byte_encode(t_hat, 10)` fails (the source raises
ValueError) and keygen returns `none`: no key pair exists, and the
encrypt/decrypt round trip of the claim is unreachable. -/
theorem claim_C3_k_pke_keygen_fails :
    k_pke_keygen 10 seedR1 seedR2 2 2 = none := by
  simp only [k_pke_keygen, sample_ntt_eq_fast, sample_poly_cbd_eq_fast, byte_encode_eq_fast]
  decide

/-- Claim C4 (refuted): encapsulation never returns a ciphertext and
shared secret for an honestly generated key.  `ml_kem_keygen_internal(12)`
succeeds on the concrete seeds (d = 12 is the one parameter on which the
keygen path can succeed, by C3), yet `ml_kem_encaps_internal` returns
`none` at d = 12 for every encapsulation key and every randomness,
because `k_pke_encrypt` rejects d = 12 inside `compress`; the spec
sentence that Encaps returns `(K, c)` therefore never holds. -/
theorem claim_C4_encaps_never_returns :
    (∀ (ek : List Int × List Int) (r : List Nat), ml_kem_encaps_internal ek r 12 = none) ∧
      (ml_kem_keygen_internal 12 seedR1 seedR2).isSome = true := by
  constructor
  · exact ml_kem_encaps_internal_twelve_none
  · simp only [ml_kem_keygen_internal, k_pke_keygen, sample_ntt_eq_fast,
      sample_poly_cbd_eq_fast, byte_encode_eq_fast]
    decide

/-- Claim C5 (refuted): the NTT round trip fails on an in-range input.
For the ring element x^2 (all 256 coefficients 0 or 1, hence `< q`),
`ntt_inv(ntt(f)) ≠ f`: `ZETA_PRECOMP_INV` inverts the zeta table in its
original order, but `ntt_inv` walks it with `k` descending from 127, so
each inverse layer multiplies by the inverse of the wrong zeta. -/
theorem claim_C5_ntt_roundtrip_fails :
    ntt_inv (ntt polyXsq) ≠ polyXsq := by decide

/-- Claim C6 (corrected): the coefficient-range invariant holds for
`ntt`, `ntt_inv`, `multiply_ntts` and `poly_add` as stated, and for
`decompress` on the amended input domain `0 ≤ y < 2^d` (the d-bit values
`compress` actually produces) rather than all of `[0, q)`: for
`2^d ≤ y < q` the output can reach q (see the counterexample). -/
theorem claim_C6_range_invariant :
    (∀ f : List Int, (∀ x ∈ f, 0 ≤ x ∧ x < 3329) → ∀ x ∈ ntt f, 0 ≤ x ∧ x < 3329) ∧
    (∀ f : List Int, ∀ x ∈ ntt_inv f, 0 ≤ x ∧ x < 3329) ∧
    (∀ f g : List Int, ∀ x ∈ multiply_ntts f g, 0 ≤ x ∧ x < 3329) ∧
    (∀ a b : List Int, ∀ x ∈ poly_add a b, 0 ≤ x ∧ x < 3329) ∧
    (∀ (y : Int) (d : Nat), 1 ≤ d → d ≤ 11 → 0 ≤ y → y < 2 ^ d →
      ∃ x, decompress y d = some x ∧ 0 ≤ x ∧ x < 3329) :=
  ⟨ntt_range, ntt_inv_range, fun f g => multiplyLoop_range GAMMA_PRECOMP f g,
    poly_add_range, decompress_range⟩

/-- Claim C6 counterexample to the unamended statement: y = 2 lies in
`[0, q)` and d = 1 lies in `[1, 11]`, but `decompress(2, 1) = 3329`,
which is not `< q`. -/
theorem claim_C6_decompress_out_of_range :
    decompress 2 1 = some 3329 ∧ ¬ ((3329 : Int) < 3329) := by decide

/-- Claim C7 (confirmed): for every x in `[0, q)` the compress/decompress
round trip at d = 10 both succeeds and moves x by at most 5 modulo q. -/
theorem claim_C7_compress_roundtrip_error :
    ((List.range 3329).all (fun n =>
      ((compress (Int.ofNat n) 10).bind (fun y => decompress y 10)).any (fun xr =>
        decide (min (xr - Int.ofNat n).natAbs (3329 - (xr - Int.ofNat n).natAbs) ≤ 5))))
      = true := by
  decide

/-- Claim C8 (confirmed): for every d with 256·d divisible by 8 and every
256-entry coefficient list in range (below 2^d for d < 12, below q for
d = 12), decoding the encoding returns exactly the original list. -/
theorem claim_C8_encode_decode_roundtrip (F : List Int) (d : Nat)
    (hlen : F.length = 256) (h8 : (256 * d) % 8 = 0)
    (hrange : ∀ x ∈ F, 0 ≤ x ∧ x < (if d < 12 then (2 : Int) ^ d else 3329)) :
    (byte_encode F d).bind (fun B => byte_decode B d) = some F := by
  have hbl : (F.flatMap (fun x => (List.range d).map (fun j => (x.toNat >>> j) &&& 1))).length
      = 256 * d := by rw [flatMapBits_length, hlen]
  have hble : ∀ b ∈ F.flatMap (fun x => (List.range d).map (fun j => (x.toNat >>> j) &&& 1)),
      b ≤ 1 := by
    intro b hb
    simp only [List.mem_flatMap, List.mem_map] at hb
    obtain ⟨x, _, j, _, rfl⟩ := hb
    exact Nat.and_le_right
  rw [byte_encode_some F d hlen h8 hrange, some_bind_eq, byte_decode_eq_fast]
  simp only [byte_decode_fast]
  rw [if_neg (by rw [bytesOfBitsAux_length, hbl]; omega)]
  rw [bytes_to_bits_bytesOfBitsAux _ hble (by rw [hbl]; exact h8)]
  have hm2 : (if d < 12 then 2 ^ d else 3329 : Nat) ≤ 2 ^ d := by
    split
    · exact le_rfl
    · next hd =>
      calc (3329 : Nat) ≤ 2 ^ 12 := by norm_num
        _ ≤ 2 ^ d := Nat.pow_le_pow_right (by norm_num) (by omega)
  have hrange2 : ∀ x ∈ F, 0 ≤ x ∧ x < ((if d < 12 then 2 ^ d else 3329 : Nat) : Int) := by
    intro x hx
    have h := hrange x hx
    by_cases hd : d < 12
    · simp only [if_pos hd] at h ⊢
      refine ⟨h.1, ?_⟩
      have hc : ((2 ^ d : Nat) : Int) = (2 : Int) ^ d := by push_cast; ring
      rw [hc]
      exact h.2
    · simp only [if_neg hd] at h ⊢
      exact ⟨h.1, by exact_mod_cast h.2⟩
  have hfinal := byteDecodeLoop_flatMap d (if d < 12 then 2 ^ d else 3329) hm2 F hrange2
  rw [hlen] at hfinal
  exact hfinal

/-- Claim C8 witness: the round trip at the concrete in-range array
`coeffs256` and d = 12. -/
theorem claim_C8_encode_decode_roundtrip_witness :
    (byte_encode coeffs256 12).bind (fun B => byte_decode B 12) = some coeffs256 :=
  claim_C8_encode_decode_roundtrip coeffs256 12 (by decide) (by decide) (by decide)

/-- Claim C9 (corrected): `byte_decode(B, 12)` never surfaces an error on
a 384-byte input; a 12-bit chunk whose value is `≥ q` is silently reduced
modulo q (the source comment reads Apply modulus).  Amended statement:
decode always succeeds on 384 bytes, and the out-of-range first chunk
4095 of `badB12` decodes to 4095 % 3329 = 766 rather than an error. -/
theorem claim_C9_byte_decode_reduces :
    (∀ B : List Nat, B.length = 384 → (byte_decode B 12).isSome = true) ∧
      byte_decode badB12 12 = some (Int.ofNat (4095 % 3329) :: List.replicate 255 0) := by
  constructor
  · intro B hB
    rw [byte_decode_eq_fast]
    simp only [byte_decode_fast]
    rw [if_neg (by omega)]
    exact byteDecodeLoop_isSome _ 12 256 _ (by rw [bytes_to_bits_length, hB])
  · rw [byte_decode_eq_fast]
    decide

/-- Claim C9 counterexample to the original statement: `badB12` has first
12-bit chunk 4095 ≥ q, yet `byte_decode(badB12, 12)` returns a value
instead of surfacing an error. -/
theorem claim_C9_silent_wrap :
    (byte_decode badB12 12).isSome = true := by
  rw [byte_decode_eq_fast]
  decide

/-- Claim C10 (confirmed): at d = 12 the compression layer rejects every
call — `compress` and `decompress` return `none` for every input — and
consequently `k_pke_encrypt` and `k_pke_decrypt` return `none` (the
InvalidParameter raise of the source) for every key, message, randomness
and ciphertext. -/
theorem claim_C10_d12_always_fails :
    (∀ x : Int, compress x 12 = none) ∧
    (∀ y : Int, decompress y 12 = none) ∧
    (∀ (ek : List Int × List Int) (m r : List Nat) (eta : Nat),
        k_pke_encrypt ek m r 12 eta = none) ∧
    (∀ (dk : List Nat × List Int × List Int) (c : List Nat),
        k_pke_decrypt dk c 12 = none) :=
  ⟨compress_twelve, decompress_twelve, k_pke_encrypt_twelve_none, k_pke_decrypt_twelve_none⟩

end QS
